import Mathlib

/-!
Verification development for the parser-combinator engine.

The definitions below are a shallow embedding of the TypeScript sources:

* data model (spans, tokens, rule states, results): src/unnamed/part_015
  (grammar.ts);
* combinators: src/unnamed/part_006 (choice.ts, sequence.ts),
  src/unnamed/part_008 (oneOrMore.ts), src/unnamed/part_010 (node.ts),
  src/unnamed/part_012 (optional.ts), src/unnamed/part_013 (map.ts),
  src/packages/syntax/src/combinators/{empty,eof,zeroOrMore,text,struct,list}.ts,
  src/unnamed/part_016 (token.ts);
* lexer and evaluator driver: src/unnamed/part_014 (parser.ts);
* grammar assembly (lazy rule accessors, extension): src/unnamed/part_015;
* DSL root-rule selection: parseSyntaxGrammar in syntax.ts
  (second document of src/packages/syntax/src/result.ts).

JavaScript dynamic values are modelled by the universal type Value; source
strings are modelled as lists of characters (JavaScript strings of UTF-16
code units); machine integers are Nat or Int.  The repetition loops of
zeroOrMore / oneOrMore and the lexer loop are modelled with explicit fuel:
the TypeScript loops carry no bound, and the fuel-stability theorems below
express exactly when they terminate.
-/

namespace STX

/-- Half-open span into the source, `Location` in grammar.ts.  The TypeScript
field named `end` is called `stop` here because `end` is a Lean keyword. -/
structure Loc where
  start : Nat
  stop : Nat
  deriving Repr, DecidableEq

/-- `Token` from grammar.ts: a kind plus a span; the text is looked up from
the source on demand. -/
structure Token where
  type : String
  location : Loc
  deriving Repr, DecidableEq

/-- Universal value type standing for the dynamically typed rule results of
the TypeScript code: null, matched tokens, strings (from text), arrays (from
sequence / zeroOrMore / oneOrMore / list), records (from struct) and AST
nodes (from node). -/
inductive Value where
  | null : Value
  | token : Token → Value
  | str : List Char → Value
  | list : List Value → Value
  | record : List (String × Value) → Value
  | node : String → Value → List Loc → Value

/-- `ParserRuleInputState` from grammar.ts. -/
structure RuleState where
  input : List Token
  source : List Char
  currentIndex : Nat

/-- `ParserRuleOutputState` from grammar.ts: the input state plus the
produced value and the consumed tokens. -/
structure OutState where
  input : List Token
  source : List Char
  currentIndex : Nat
  value : Value
  tokens : List Token

/-- Forget the value/tokens of an output state; in TypeScript an output
state is structurally an input state, so combinators pass it on directly. -/
def OutState.toInput (o : OutState) : RuleState :=
  ⟨o.input, o.source, o.currentIndex⟩

/-- `ParserRuleError` from grammar.ts: a message and a span. -/
structure RuleErr where
  message : String
  location : Loc

/-- `ParserRuleResult` from grammar.ts (a `Result` of result.ts). -/
inductive RuleResult where
  | success : OutState → RuleResult
  | error : RuleErr → RuleResult

def RuleResult.isSuccess : RuleResult → Bool
  | .success _ => true
  | .error _ => false

/-- `ParserRuleHelpers` from grammar.ts: the helper bundle handed to every
combinator by the driver.  `isTokenType` is token-kind equality and is
inlined as equality of the `type` fields below. -/
structure Helpers where
  eof : Loc
  readToken : Nat → Option Token
  getTokenSource : Token → List Char

/-- `ParserRule` from grammar.ts: a combinator maps an input state and the
helper bundle to a result. -/
def ParserRule := RuleState → Helpers → RuleResult

/-- `token(type)` from token.ts: consume one token of the given kind,
advancing by one; otherwise fail with "Expected token: K" at the current
token's span (or at the EOF span when past the end). -/
def token (type : String) : ParserRule := fun state helpers =>
  match helpers.readToken state.currentIndex with
  | none => .error ⟨"Expected token: " ++ type, helpers.eof⟩
  | some t =>
    if t.type = type then
      .success ⟨state.input, state.source, state.currentIndex + 1, .token t, [t]⟩
    else
      .error ⟨"Expected token: " ++ type, t.location⟩

/-- `empty()` from empty.ts: always succeed with null, no advance. -/
def empty : ParserRule := fun state _helpers =>
  .success ⟨state.input, state.source, state.currentIndex, .null, []⟩

/-- `eof()` from eof.ts: succeed exactly when no token remains at the
current index, otherwise fail with "Expected end of input" at the offending
token's span. -/
def eof : ParserRule := fun state helpers =>
  match helpers.readToken state.currentIndex with
  | some t => .error ⟨"Expected end of input", t.location⟩
  | none => .success ⟨state.input, state.source, state.currentIndex, .null, []⟩

/-- `optional(rule)` from optional.ts: on failure of the inner rule succeed
with null and the original (unadvanced) state. -/
def optional (rule : ParserRule) : ParserRule := fun state helpers =>
  match rule state helpers with
  | .success o => .success o
  | .error _ => .success ⟨state.input, state.source, state.currentIndex, .null, []⟩

/-- `map(rule, transform)` from map.ts. -/
def map (rule : ParserRule) (transform : Value → Value) : ParserRule := fun state helpers =>
  match rule state helpers with
  | .error e => .error e
  | .success o => .success { o with value := transform o.value }

/-- `text(rule)` from text.ts: concatenate the source text of the consumed
tokens of the inner rule. -/
def text (rule : ParserRule) : ParserRule := fun state helpers =>
  match rule state helpers with
  | .error e => .error e
  | .success o =>
    .success { o with value := .str (o.tokens.map helpers.getTokenSource).flatten }

/-- `node(type, propertiesRule)` from node.ts: wrap the inner value in an
AST node recording the consumed tokens' spans. -/
def node (type : String) (propertiesRule : ParserRule) : ParserRule := fun state helpers =>
  match propertiesRule state helpers with
  | .error e => .error e
  | .success o =>
    .success { o with value := .node type o.value (o.tokens.map (·.location)) }

/-- The iteration of `sequence(...rules)` from sequence.ts: thread the state
through each rule in order, collecting values and concatenating consumed
tokens; the first failure is returned verbatim. -/
def sequenceGo (helpers : Helpers) :
    List ParserRule → RuleState → List Value → List Token → RuleResult
  | [], state, values, tokens =>
    .success ⟨state.input, state.source, state.currentIndex, .list values, tokens⟩
  | rule :: rest, state, values, tokens =>
    match rule state helpers with
    | .error e => .error e
    | .success o => sequenceGo helpers rest o.toInput (values ++ [o.value]) (tokens ++ o.tokens)

/-- `sequence(...rules)` from sequence.ts. -/
def sequence (rules : List ParserRule) : ParserRule := fun state helpers =>
  sequenceGo helpers rules state [] []

/-- Best-error bookkeeping of choice.ts: the later error replaces the
current one only when its span starts strictly further. -/
def betterErr (current : RuleErr) (e : RuleErr) : RuleErr :=
  if e.location.start > current.location.start then e else current

/-- The iteration of `choice(...rules)` from choice.ts: try each rule on the
same input state; first success wins; otherwise keep the error that
progressed furthest (strictly), i.e. ties keep the earlier alternative. -/
def choiceGo (helpers : Helpers) (state : RuleState) :
    List ParserRule → Option RuleErr → RuleResult
  | [], none =>
    .error ⟨"No choices available",
      match helpers.readToken state.currentIndex with
      | some t => t.location
      | none => helpers.eof⟩
  | [], some best => .error best
  | rule :: rest, best =>
    match rule state helpers with
    | .success o => .success o
    | .error e =>
      choiceGo helpers state rest
        (some (match best with | none => e | some current => betterErr current e))

/-- `choice(...rules)` from choice.ts. -/
def choice (rules : List ParserRule) : ParserRule := fun state helpers =>
  choiceGo helpers state rules none

/-- The shared while-loop of zeroOrMore.ts and oneOrMore.ts, with explicit
fuel standing for the unbounded TypeScript loop: stop on failure of the
inner rule or on a success that does not advance `currentIndex`; otherwise
collect the value, merge the consumed tokens and continue. -/
def repGo (rule : ParserRule) (helpers : Helpers) :
    Nat → OutState → List Value → OutState × List Value
  | 0, acc, values => (acc, values)
  | fuel + 1, acc, values =>
    match rule acc.toInput helpers with
    | .error _ => (acc, values)
    | .success o =>
      if o.currentIndex = acc.currentIndex then (acc, values)
      else repGo rule helpers fuel { o with tokens := acc.tokens ++ o.tokens } (values ++ [o.value])

/-- `zeroOrMore(rule)` from zeroOrMore.ts with explicit fuel. -/
def zeroOrMoreFuel (rule : ParserRule) (fuel : Nat) : ParserRule := fun state helpers =>
  let r := repGo rule helpers fuel ⟨state.input, state.source, state.currentIndex, .null, []⟩ []
  .success { r.1 with value := .list r.2 }

/-- `zeroOrMore(rule)` from zeroOrMore.ts; the fuel `|input| + 1` is enough,
see the fuel-stability theorem for the termination claim. -/
def zeroOrMore (rule : ParserRule) : ParserRule := fun state helpers =>
  zeroOrMoreFuel rule (state.input.length + 1) state helpers

/-- `oneOrMore(rule)` from oneOrMore.ts with explicit fuel: require a first
match; if it did not advance, bail out successfully with a singleton list;
otherwise continue with the shared loop. -/
def oneOrMoreFuel (rule : ParserRule) (fuel : Nat) : ParserRule := fun state helpers =>
  match rule state helpers with
  | .error e => .error e
  | .success first =>
    if first.currentIndex = state.currentIndex then
      .success { first with value := .list [first.value] }
    else
      let r := repGo rule helpers fuel { first with value := .null } [first.value]
      .success { r.1 with value := .list r.2 }

/-- `oneOrMore(rule)` from oneOrMore.ts. -/
def oneOrMore (rule : ParserRule) : ParserRule := fun state helpers =>
  oneOrMoreFuel rule (state.input.length + 1) state helpers

/-- `field(key, rule)` from struct.ts: a descriptor pairing an optional
property key (null drops the value) with a rule. -/
def field (key : Option String) (rule : ParserRule) : Option String × ParserRule :=
  (key, rule)

/-- The record-building loop inside struct.ts: pair each named key with the
corresponding sequence value, skipping null-keyed fields. -/
def structZip : List (Option String) → List Value → List (String × Value)
  | some k :: keys, v :: values => (k, v) :: structZip keys values
  | none :: keys, _ :: values => structZip keys values
  | _, _ => []

/-- The map function of struct.ts applied to the sequence result (always an
array of the field results). -/
def structFields (keys : List (Option String)) : Value → Value
  | .list values => .record (structZip keys values)
  | _ => .record []

/-- `struct(...fields)` from struct.ts: a `map` over the `sequence` of the
field rules, exactly as in the source. -/
def struct (fields : List (Option String × ParserRule)) : ParserRule :=
  map (sequence (fields.map (·.2))) (structFields (fields.map (·.1)))

/-- The `tailItem` of list.ts: a separator followed by an item, keeping only
the item's value (the TypeScript destructuring `([_separator, value]) => value`). -/
def listTailItem (item separator : ParserRule) : ParserRule :=
  map (sequence [separator, item])
    (fun v => match v with | .list (_ :: v2 :: _) => v2 | _ => .null)

/-- `combineListResults` from list.ts: the sequence result is the head items
followed by the zeroOrMore array of the remaining items; flatten them into a
single array.  A non-array final element cannot occur for the sequences
built by `createListMatcher`. -/
def combineListResults : Value → Value
  | .list values =>
    match values.getLast? with
    | some (.list rest) => .list (values.dropLast ++ rest)
    | _ => .null
  | _ => .null

/-- `createListMatcher(item, separator, minLength)` from list.ts for
`minLength ≥ 1`: the item, then `minLength - 1` mandatory
separator-plus-item pairs, then zero or more further pairs. -/
def createListMatcherPos (item separator : ParserRule) (minLength : Nat) : ParserRule :=
  map
    (sequence
      (item ::
        (List.replicate (minLength - 1) (listTailItem item separator) ++
          [zeroOrMore (listTailItem item separator)])))
    combineListResults

/-- `createListMatcher(item, separator, minLength)` from list.ts: for
`minLength ≤ 0` the one-element matcher is made optional and a null result
is replaced by the empty array (`values ?? []`). -/
def createListMatcher (item separator : ParserRule) (minLength : Int) : ParserRule :=
  if minLength ≤ 0 then
    map (optional (createListMatcherPos item separator 1))
      (fun v => match v with | .null => .list [] | v => v)
  else createListMatcherPos item separator minLength.toNat

/-- `list(item, separator, options)` from list.ts; the `minLength` option
defaults to 0. -/
def list (item separator : ParserRule) (minLength : Int) : ParserRule :=
  createListMatcher item separator minLength

/-- `readToken` of the helper bundle built by `Parser.parse` in parser.ts:
read the token at an index, none past the end. -/
def readTokenAt (input : List Token) (i : Nat) : Option Token :=
  input[i]?

/-- `getTokenSource` of the helper bundle built by `Parser.parse` in
parser.ts: `source.slice(token.location.start, token.location.end)`. -/
def getTokenSourceAt (source : List Char) (t : Token) : List Char :=
  (source.drop t.location.start).take (t.location.stop - t.location.start)

/-- The EOF span `{start: source.length, end: source.length}` computed by
`Parser.parse` in parser.ts. -/
def eofLoc (source : List Char) : Loc :=
  ⟨source.length, source.length⟩

/-- The helper bundle built by `Parser.parse` in parser.ts from the token
stream and the source string. -/
def mkHelpers (input : List Token) (source : List Char) : Helpers :=
  ⟨eofLoc source, readTokenAt input, getTokenSourceAt source⟩

/-- `ParseError` from parser.ts, reduced to the data the claims are about:
message, source and span (the rendered snippet is derived from these). -/
structure ParseErr where
  message : String
  source : List Char
  location : Loc

/-- A token parser of grammar.ts (`TokenParser`): given the source and the
current index, return the index just past the match, or none.  This models
the anchored sticky-regex test of `createTokenParser`. -/
def TokenParser := List Char → Nat → Option Nat

/-- `createTokenParser(pattern)` from grammar.ts for a literal string
pattern: the pattern is escaped and compiled to a regular expression that
matches exactly that text anchored at the current index, so it matches iff
the literal occurs at the current index (within the input). -/
def createTokenParserLit (lit : List Char) : TokenParser := fun input i =>
  if i + lit.length ≤ input.length ∧ (input.drop i).take lit.length = lit then
    some (i + lit.length)
  else none

/-- The inner for-loop of `Parser.tokenize` in parser.ts: try each token
parser in declaration order and return the first match. -/
def firstTokenMatch : List (String × TokenParser) → List Char → Nat → Option (String × Nat)
  | [], _, _ => none
  | (type, p) :: rest, input, i =>
    match p input i with
    | some j => some (type, j)
    | none => firstTokenMatch rest input i

/-- The while-loop of `Parser.tokenize` in parser.ts with explicit fuel
(the TypeScript loop is unbounded; a result of none means the loop has not
finished within the given fuel).  The first matching parser emits a token
spanning from the current index to the parser's returned index and the loop
continues there; if no parser matches, tokenization fails with
"Unrecognized token" and span `[i, i+1)`. -/
def tokenizeGo (parsers : List (String × TokenParser)) (input : List Char) :
    Nat → Nat → List Token → Option (Except ParseErr (List Token))
  | 0, _, _ => none
  | fuel + 1, currentIndex, tokens =>
    if currentIndex < input.length then
      match firstTokenMatch parsers input currentIndex with
      | some (type, nextIndex) =>
        tokenizeGo parsers input fuel nextIndex
          (tokens ++ [⟨type, ⟨currentIndex, nextIndex⟩⟩])
      | none =>
        some (.error ⟨"Unrecognized token", input, ⟨currentIndex, currentIndex + 1⟩⟩)
    else some (.ok tokens)

/-- `Parser.tokenize` from parser.ts (fuelled). -/
def tokenize (parsers : List (String × TokenParser)) (input : List Char) (fuel : Nat) :
    Option (Except ParseErr (List Token)) :=
  tokenizeGo parsers input fuel 0 []

/-- `Parser.parse` from parser.ts: run the root rule from index 0 with the
helper bundle; wrap a rule error into a parse error; on success require the
whole token stream to be consumed, otherwise fail with "Expected end of
input" at the first unconsumed token's span.  The outer `Option` models the
JavaScript crash on `input[currentIndex].location` when `currentIndex`
exceeds the stream length (shown unreachable below). -/
def parseDriver (root : ParserRule) (input : List Token) (source : List Char) :
    Option (Except ParseErr Value) :=
  match root ⟨input, source, 0⟩ (mkHelpers input source) with
  | .error e => some (.error ⟨e.message, source, e.location⟩)
  | .success o =>
    if o.currentIndex = input.length then some (.ok o.value)
    else
      match input[o.currentIndex]? with
      | some t => some (.error ⟨"Expected end of input", source, t.location⟩)
      | none => none

/-!
Grammar assembly (grammar.ts): `createLazyRuleAccessors` builds a proxy
object whose keys are exactly the keys of the supplied rule-definition map;
reading a key yields a lazy accessor that, when invoked as a combinator,
delegates to the by-then-instantiated rule of that name.  Each factory is
invoked with this proxy.  `extendGrammar` spreads the existing grammar's
rules and the accessors built from the new definitions into a fresh object.
The model below captures the name-level behaviour: which keys the handle
exposes, what each factory receives, and how the merged rule map resolves
names.  Rule payloads are an arbitrary type `A`.
-/

/-- A property read from the lazy rules handle: a lazy reference that
delegates by name (`createLazyRuleAccessor` in grammar.ts). -/
inductive LazyRuleAccessor where
  | lazyRef : String → LazyRuleAccessor
  deriving Repr, DecidableEq

/-- The rules handle passed to every rule factory: reading the property `k`
yields a lazy accessor iff `k` is a key of the rule-definition map the
accessors were built from (`Object.fromEntries` over
`Reflect.ownKeys(ruleDefinitions)` in `createLazyRuleAccessors`); any other
property read yields undefined. -/
def accessorHandle (keys : List String) : String → Option LazyRuleAccessor :=
  fun k => if k ∈ keys then some (.lazyRef k) else none

/-- A rule factory (`ParserRuleFactory` in grammar.ts): a function of the
rules handle. -/
def RuleFactory (A : Type) := (String → Option LazyRuleAccessor) → A

/-- `createLazyRuleAccessors(ruleDefinitions)` from grammar.ts, at the name
level: every factory is invoked with the handle exposing exactly the keys
of `ruleDefinitions`, and the result is keyed by the same names. -/
def createLazyRuleAccessorsModel {A : Type} (defs : List (String × RuleFactory A)) :
    List (String × A) :=
  defs.map (fun kf => (kf.1, kf.2 (accessorHandle (defs.map Prod.fst))))

/-- Property lookup on a JavaScript object built by spreading `old` then
`new`: the last write to a key wins, so later entries override earlier
ones.  Assoc lists here list older entries first, so lookup prefers the
rightmost binding. -/
def lookupRule {A : Type} (rules : List (String × A)) (k : String) : Option A :=
  match rules.reverse.find? (fun kv => kv.1 = k) with
  | some kv => some kv.2
  | none => none

/-- `extendGrammar(grammar, rules)` from grammar.ts:
`{...grammar.rules, ...createLazyRuleAccessors(rules)}` — the new entries
are merged over the existing ones into a fresh object (the original grammar
value is not modified). -/
def extendGrammarModel {A : Type} (grammarRules : List (String × A))
    (defs : List (String × RuleFactory A)) : List (String × A) :=
  grammarRules ++ createLazyRuleAccessorsModel defs

/-!
DSL root-rule selection: `parseSyntaxGrammar` in syntax.ts.
-/

/-- A rule statement of the parsed DSL grammar, reduced to the data root
selection inspects: whether it is a terminal or non-terminal rule and the
name of its target identifier. -/
inductive SyntaxRuleNode where
  | terminalRule : String → SyntaxRuleNode
  | nonTerminalRule : String → SyntaxRuleNode
  deriving Repr, DecidableEq

/-- `isNodeTypeIdentifier` from syntax.ts:
`name.charAt(0) === name.charAt(0).toUpperCase()` — true when the first
character is unchanged by upper-casing (vacuously true for the empty
name).  `Char.toUpper` models `String.prototype.toUpperCase` on single
characters (they agree on ASCII letters). -/
def isNodeTypeIdentifier (name : String) : Bool :=
  match name.toList with
  | [] => true
  | c :: _ => c.toUpper = c

/-- The target name of a rule when it is a non-terminal rule. -/
def nonTerminalName : SyntaxRuleNode → Option String
  | .nonTerminalRule name => some name
  | .terminalRule _ => none

/-- The root-selection logic of `parseSyntaxGrammar` in syntax.ts: find the
first non-terminal rule (`rules.find(rule => rule.type === NonTerminalRule)`);
if there is none, throw "Missing root rule in syntax grammar"; if its
target is not a node-type identifier, throw
"Root rule must define an AST Node: <name>"; otherwise the root node type
is that rule's name. -/
def parseSyntaxGrammarRoot (rules : List SyntaxRuleNode) : Except String String :=
  match rules.findSome? nonTerminalName with
  | none => .error "Missing root rule in syntax grammar"
  | some name =>
    if isNodeTypeIdentifier name then .ok name
    else .error ("Root rule must define an AST Node: " ++ name)

/-- Modelled from the spec: "The first non-terminal rule in declaration
order whose name begins with an uppercase letter is the AST root."  Used to
compare the claimed root selection with the code's. -/
def specRootNodeType (rules : List SyntaxRuleNode) : Option String :=
  rules.findSome? (fun r =>
    match nonTerminalName r with
    | some name => if isNodeTypeIdentifier name then some name else none
    | none => none)

/-!
The combinator algebra as a closed syntax, for the claims that quantify
over every combinator / every inner rule of the algebra.  `eval` maps each
constructor to the shallow combinator above, so a `Rule` denotes exactly a
combinator graph built from the public surface of the engine.
-/

/-- Syntax of the combinator algebra (the public combinator surface;
`struct`, `field` and `list` are derived combinators in the source and are
expressed by the derived definitions above). -/
inductive Rule where
  | token : String → Rule
  | empty : Rule
  | eof : Rule
  | optional : Rule → Rule
  | sequence : List Rule → Rule
  | choice : List Rule → Rule
  | zeroOrMore : Rule → Rule
  | oneOrMore : Rule → Rule
  | map : Rule → (Value → Value) → Rule
  | text : Rule → Rule
  | node : String → Rule → Rule

/-- Interpretation of the algebra: each constructor denotes the
corresponding combinator of the source. -/
def eval : Rule → ParserRule
  | .token k => token k
  | .empty => empty
  | .eof => eof
  | .optional r => fun s h => optional (fun s' h' => eval r s' h') s h
  | .sequence rs => fun s h =>
    sequence (rs.attach.map (fun x => fun s' h' => eval x.1 s' h')) s h
  | .choice rs => fun s h =>
    choice (rs.attach.map (fun x => fun s' h' => eval x.1 s' h')) s h
  | .zeroOrMore r => fun s h => zeroOrMore (fun s' h' => eval r s' h') s h
  | .oneOrMore r => fun s h => oneOrMore (fun s' h' => eval r s' h') s h
  | .map r f => fun s h => map (fun s' h' => eval r s' h') f s h
  | .text r => fun s h => text (fun s' h' => eval r s' h') s h
  | .node ty r => fun s h => node ty (fun s' h' => eval r s' h') s h
termination_by r => sizeOf r
decreasing_by
  all_goals simp_wf
  all_goals first
    | omega
    | (have hsz := List.sizeOf_lt_of_mem x.2; omega)

theorem eval_token (k : String) : eval (.token k) = token k := by
  rw [eval]

theorem eval_empty : eval .empty = empty := by
  rw [eval]

theorem eval_eof : eval .eof = eof := by
  rw [eval]

theorem eval_optional (r : Rule) : eval (.optional r) = optional (eval r) := by
  funext s h; rw [eval]

theorem eval_sequence (rs : List Rule) : eval (.sequence rs) = sequence (rs.map eval) := by
  funext s h; rw [eval]; rw [List.attach_map_val rs eval]

theorem eval_choice (rs : List Rule) : eval (.choice rs) = choice (rs.map eval) := by
  funext s h; rw [eval]; rw [List.attach_map_val rs eval]

theorem eval_zeroOrMore (r : Rule) : eval (.zeroOrMore r) = zeroOrMore (eval r) := by
  funext s h; rw [eval]

theorem eval_oneOrMore (r : Rule) : eval (.oneOrMore r) = oneOrMore (eval r) := by
  funext s h; rw [eval]

theorem eval_map (r : Rule) (f : Value → Value) : eval (.map r f) = map (eval r) f := by
  funext s h; rw [eval]

theorem eval_text (r : Rule) : eval (.text r) = text (eval r) := by
  funext s h; rw [eval]

theorem eval_node (ty : String) (r : Rule) : eval (.node ty r) = node ty (eval r) := by
  funext s h; rw [eval]

/-!
Preservation: every combinator of the algebra, run with the driver's helper
bundle, keeps the token stream and source unchanged, never moves
`currentIndex` backwards, and never moves it past the end of the token
stream (advancement only happens one token at a time in `token`).
-/

/-- The preservation invariant for a single combinator. -/
def StepOk (input : List Token) (source : List Char) (p : ParserRule) : Prop :=
  ∀ s o, s.input = input → s.source = source →
    p s (mkHelpers input source) = .success o →
    o.input = input ∧ o.source = source ∧ s.currentIndex ≤ o.currentIndex ∧
      (o.currentIndex ≤ s.currentIndex ∨ o.currentIndex ≤ input.length)

theorem stepOk_token (input : List Token) (source : List Char) (k : String) :
    StepOk input source (token k) := by
  intro s o hi hs hp
  unfold token at hp
  simp only [mkHelpers] at hp
  split at hp
  · cases hp
  · next t heq =>
    split at hp
    · cases hp
      have hlt : s.currentIndex < input.length := by
        by_contra hge
        rw [readTokenAt, List.getElem?_eq_none (by omega)] at heq
        cases heq
      exact ⟨hi, hs, by dsimp only; omega, by dsimp only; omega⟩
    · cases hp

theorem stepOk_empty (input : List Token) (source : List Char) :
    StepOk input source empty := by
  intro s o hi hs hp
  unfold empty at hp
  cases hp
  exact ⟨hi, hs, le_refl _, by dsimp only; omega⟩

theorem stepOk_eof (input : List Token) (source : List Char) :
    StepOk input source eof := by
  intro s o hi hs hp
  unfold eof at hp
  split at hp
  · cases hp
  · cases hp; exact ⟨hi, hs, le_refl _, by dsimp only; omega⟩

theorem stepOk_optional (input : List Token) (source : List Char) (p : ParserRule)
    (hp : StepOk input source p) : StepOk input source (optional p) := by
  intro s o hi hs hr
  unfold optional at hr
  split at hr
  · next o1 heq => cases hr; exact hp s _ hi hs heq
  · cases hr; exact ⟨hi, hs, le_refl _, by dsimp only; omega⟩

theorem stepOk_map (input : List Token) (source : List Char) (p : ParserRule)
    (f : Value → Value) (hp : StepOk input source p) : StepOk input source (map p f) := by
  intro s o hi hs hr
  unfold map at hr
  split at hr
  · cases hr
  · next o1 heq =>
    cases hr
    have h1 := hp s o1 hi hs heq
    exact ⟨h1.1, h1.2.1, h1.2.2.1, h1.2.2.2⟩

theorem stepOk_text (input : List Token) (source : List Char) (p : ParserRule)
    (hp : StepOk input source p) : StepOk input source (text p) := by
  intro s o hi hs hr
  unfold text at hr
  split at hr
  · cases hr
  · next o1 heq =>
    cases hr
    have h1 := hp s o1 hi hs heq
    exact ⟨h1.1, h1.2.1, h1.2.2.1, h1.2.2.2⟩

theorem stepOk_node (input : List Token) (source : List Char) (ty : String) (p : ParserRule)
    (hp : StepOk input source p) : StepOk input source (node ty p) := by
  intro s o hi hs hr
  unfold node at hr
  split at hr
  · cases hr
  · next o1 heq =>
    cases hr
    have h1 := hp s o1 hi hs heq
    exact ⟨h1.1, h1.2.1, h1.2.2.1, h1.2.2.2⟩

theorem stepOk_sequenceGo (input : List Token) (source : List Char) :
    ∀ (ps : List ParserRule) (s : RuleState) (values : List Value) (tokens : List Token)
      (o : OutState), (∀ p ∈ ps, StepOk input source p) →
      s.input = input → s.source = source →
      sequenceGo (mkHelpers input source) ps s values tokens = .success o →
      o.input = input ∧ o.source = source ∧ s.currentIndex ≤ o.currentIndex ∧
        (o.currentIndex ≤ s.currentIndex ∨ o.currentIndex ≤ input.length) := by
  intro ps
  induction ps with
  | nil =>
    intro s values tokens o _ hi hs hr
    unfold sequenceGo at hr
    cases hr
    exact ⟨hi, hs, le_refl _, by dsimp only; omega⟩
  | cons p rest ih =>
    intro s values tokens o hok hi hs hr
    unfold sequenceGo at hr
    split at hr
    · cases hr
    · next o1 heq =>
      have h1 := hok p (by simp) s o1 hi hs heq
      have h2 := ih o1.toInput (values ++ [o1.value]) _ o
        (fun q hq => hok q (by simp [hq])) h1.1 h1.2.1 hr
      obtain ⟨g1, g2, g3, g4⟩ := h2
      dsimp only [OutState.toInput] at g3 g4
      have m1 := h1.2.2.1
      have m2 := h1.2.2.2
      exact ⟨g1, g2, by omega, by omega⟩

theorem stepOk_sequence (input : List Token) (source : List Char) (ps : List ParserRule)
    (hok : ∀ p ∈ ps, StepOk input source p) : StepOk input source (sequence ps) := by
  intro s o hi hs hr
  unfold sequence at hr
  exact stepOk_sequenceGo input source ps s [] [] o hok hi hs hr

theorem stepOk_choiceGo (input : List Token) (source : List Char) :
    ∀ (ps : List ParserRule) (s : RuleState) (best : Option RuleErr) (o : OutState),
      (∀ p ∈ ps, StepOk input source p) → s.input = input → s.source = source →
      choiceGo (mkHelpers input source) s ps best = .success o →
      o.input = input ∧ o.source = source ∧ s.currentIndex ≤ o.currentIndex ∧
        (o.currentIndex ≤ s.currentIndex ∨ o.currentIndex ≤ input.length) := by
  intro ps
  induction ps with
  | nil =>
    intro s best o _ _ _ hr
    cases best <;> (unfold choiceGo at hr; cases hr)
  | cons p rest ih =>
    intro s best o hok hi hs hr
    unfold choiceGo at hr
    split at hr
    · next o1 heq =>
      cases hr
      exact hok p (by simp) s _ hi hs heq
    · next e heq =>
      exact ih s _ o (fun q hq => hok q (by simp [hq])) hi hs hr

theorem stepOk_choice (input : List Token) (source : List Char) (ps : List ParserRule)
    (hok : ∀ p ∈ ps, StepOk input source p) : StepOk input source (choice ps) := by
  intro s o hi hs hr
  unfold choice at hr
  exact stepOk_choiceGo input source ps s none o hok hi hs hr

theorem repGo_inv (input : List Token) (source : List Char) (p : ParserRule)
    (hp : StepOk input source p) :
    ∀ (fuel : Nat) (acc : OutState) (values : List Value),
      acc.input = input → acc.source = source →
      (repGo p (mkHelpers input source) fuel acc values).1.input = input ∧
        (repGo p (mkHelpers input source) fuel acc values).1.source = source ∧
        acc.currentIndex ≤ (repGo p (mkHelpers input source) fuel acc values).1.currentIndex ∧
        ((repGo p (mkHelpers input source) fuel acc values).1.currentIndex ≤ acc.currentIndex ∨
          (repGo p (mkHelpers input source) fuel acc values).1.currentIndex ≤ input.length) := by
  intro fuel
  induction fuel with
  | zero =>
    intro acc values hi hs
    unfold repGo
    exact ⟨hi, hs, le_refl _, by dsimp only; omega⟩
  | succ fuel ih =>
    intro acc values hi hs
    unfold repGo
    split
    · next e heq => exact ⟨hi, hs, le_refl _, by dsimp only; omega⟩
    · next o heq =>
      split
      · exact ⟨hi, hs, le_refl _, by dsimp only; omega⟩
      · next hidx =>
        have h1 := hp acc.toInput o hi hs heq
        dsimp only [OutState.toInput] at h1
        have h2 := ih { o with tokens := acc.tokens ++ o.tokens } (values ++ [o.value])
          h1.1 h1.2.1
        obtain ⟨g1, g2, g3, g4⟩ := h2
        dsimp only at g3 g4
        have m1 := h1.2.2.1
        have m2 := h1.2.2.2
        exact ⟨g1, g2, by omega, by omega⟩

theorem stepOk_zeroOrMore (input : List Token) (source : List Char) (p : ParserRule)
    (hp : StepOk input source p) : StepOk input source (zeroOrMore p) := by
  intro s o hi hs hr
  unfold zeroOrMore zeroOrMoreFuel at hr
  simp only at hr
  cases hr
  have h := repGo_inv input source p hp (s.input.length + 1)
    ⟨s.input, s.source, s.currentIndex, .null, []⟩ [] hi hs
  obtain ⟨g1, g2, g3, g4⟩ := h
  dsimp only at g3 g4
  exact ⟨g1, g2, g3, by dsimp only; omega⟩

theorem stepOk_oneOrMore (input : List Token) (source : List Char) (p : ParserRule)
    (hp : StepOk input source p) : StepOk input source (oneOrMore p) := by
  intro s o hi hs hr
  unfold oneOrMore oneOrMoreFuel at hr
  split at hr
  · cases hr
  · next first heq =>
    have h1 := hp s first hi hs heq
    split at hr
    · cases hr
      exact ⟨h1.1, h1.2.1, h1.2.2.1, by dsimp only; have := h1.2.2.2; omega⟩
    · next hidx =>
      simp only at hr
      cases hr
      have h2 := repGo_inv input source p hp (s.input.length + 1)
        { first with value := .null } [first.value] h1.1 h1.2.1
      obtain ⟨g1, g2, g3, g4⟩ := h2
      dsimp only at g3 g4
      have m1 := h1.2.2.1
      have m2 := h1.2.2.2
      exact ⟨g1, g2, by dsimp only; omega, by dsimp only; omega⟩

/-- When the current index is already past the end of the token stream, the
repetition loop stops immediately (any success of an algebra rule there
cannot advance), for every amount of fuel. -/
theorem repGo_frozen (input : List Token) (source : List Char) (p : ParserRule)
    (hp : StepOk input source p) :
    ∀ (fuel : Nat) (acc : OutState) (values : List Value),
      acc.input = input → acc.source = source → input.length < acc.currentIndex →
      repGo p (mkHelpers input source) fuel acc values = (acc, values) := by
  intro fuel acc values hi hs hlt
  cases fuel with
  | zero => unfold repGo; rfl
  | succ fuel =>
    unfold repGo
    split
    · rfl
    · next o heq =>
      have h1 := hp acc.toInput o hi hs heq
      dsimp only [OutState.toInput] at h1
      have hidx : o.currentIndex = acc.currentIndex := by
        have := h1.2.2.1
        have := h1.2.2.2
        omega
      rw [if_pos hidx]

/-- Fuel-stability of the repetition loop: once the fuel covers the number
of tokens left, the result no longer depends on the fuel.  This is the
termination of the unbounded TypeScript while-loop: every continuing
iteration strictly advances, and an algebra rule cannot advance past the end
of the token stream. -/
theorem repGo_stable (input : List Token) (source : List Char) (p : ParserRule)
    (hp : StepOk input source p) :
    ∀ (fuel1 fuel2 : Nat) (acc : OutState) (values : List Value),
      acc.input = input → acc.source = source →
      input.length + 1 ≤ fuel1 + acc.currentIndex →
      input.length + 1 ≤ fuel2 + acc.currentIndex →
      repGo p (mkHelpers input source) fuel1 acc values =
        repGo p (mkHelpers input source) fuel2 acc values := by
  intro fuel1
  induction fuel1 with
  | zero =>
    intro fuel2 acc values hi hs hf1 hf2
    have hlt : input.length < acc.currentIndex := by omega
    rw [repGo_frozen input source p hp 0 acc values hi hs hlt,
      repGo_frozen input source p hp fuel2 acc values hi hs hlt]
  | succ fuel1 ih =>
    intro fuel2 acc values hi hs hf1 hf2
    cases fuel2 with
    | zero =>
      have hlt : input.length < acc.currentIndex := by omega
      rw [repGo_frozen input source p hp (fuel1 + 1) acc values hi hs hlt,
        repGo_frozen input source p hp 0 acc values hi hs hlt]
    | succ fuel2 =>
      show repGo p (mkHelpers input source) (fuel1 + 1) acc values =
        repGo p (mkHelpers input source) (fuel2 + 1) acc values
      unfold repGo
      split
      · rfl
      · next o heq =>
        by_cases hidx : o.currentIndex = acc.currentIndex
        · rw [if_pos hidx, if_pos hidx]
        · rw [if_neg hidx, if_neg hidx]
          have h1 := hp acc.toInput o hi hs heq
          dsimp only [OutState.toInput] at h1
          have m1 := h1.2.2.1
          have m2 := h1.2.2.2
          exact ih fuel2 { o with tokens := acc.tokens ++ o.tokens } (values ++ [o.value])
            h1.1 h1.2.1 (by dsimp only; omega) (by dsimp only; omega)

/-- Every combinator of the algebra satisfies the preservation invariant:
the token stream and source are never changed, `currentIndex` never moves
backwards on success, and never moves past the end of the token stream. -/
theorem eval_stepOk (input : List Token) (source : List Char) :
    ∀ (r : Rule), StepOk input source (eval r) := by
  have main : ∀ (n : Nat) (r : Rule), sizeOf r ≤ n → StepOk input source (eval r) := by
    intro n
    induction n with
    | zero =>
      intro r hr
      cases r <;> simp at hr
    | succ n ih =>
      intro r hr
      cases r with
      | token k => rw [eval_token]; exact stepOk_token input source k
      | empty => rw [eval_empty]; exact stepOk_empty input source
      | eof => rw [eval_eof]; exact stepOk_eof input source
      | optional r =>
        rw [eval_optional]
        exact stepOk_optional input source _ (ih r (by simp at hr; omega))
      | sequence rs =>
        rw [eval_sequence]
        refine stepOk_sequence input source _ ?_
        intro p hp
        rw [List.mem_map] at hp
        obtain ⟨r1, hr1, hpe⟩ := hp
        have hsz := List.sizeOf_lt_of_mem hr1
        subst hpe
        exact ih r1 (by simp at hr; omega)
      | choice rs =>
        rw [eval_choice]
        refine stepOk_choice input source _ ?_
        intro p hp
        rw [List.mem_map] at hp
        obtain ⟨r1, hr1, hpe⟩ := hp
        have hsz := List.sizeOf_lt_of_mem hr1
        subst hpe
        exact ih r1 (by simp at hr; omega)
      | zeroOrMore r =>
        rw [eval_zeroOrMore]
        exact stepOk_zeroOrMore input source _ (ih r (by simp at hr; omega))
      | oneOrMore r =>
        rw [eval_oneOrMore]
        exact stepOk_oneOrMore input source _ (ih r (by simp at hr; omega))
      | map r f =>
        rw [eval_map]
        exact stepOk_map input source _ f (ih r (by simp at hr; omega))
      | text r =>
        rw [eval_text]
        exact stepOk_text input source _ (ih r (by simp at hr; omega))
      | node ty r =>
        rw [eval_node]
        exact stepOk_node input source ty _ (ih r (by simp at hr; omega))
  intro r
  exact main (sizeOf r) r (le_refl _)

/-!
Claim theorems.
-/

theorem toInput_mk (s : RuleState) (v : Value) (ts : List Token) :
    OutState.toInput ⟨s.input, s.source, s.currentIndex, v, ts⟩ = s := rfl

/-- C9: optional(r) never fails (on failure of r it succeeds with value null
and no advance); zeroOrMore(r) never fails; text(r) succeeds iff r succeeds
and on success its value is the concatenation of the source substrings of
the tokens consumed by r, in order; map(r, f) succeeds iff r succeeds. -/
theorem c9_never_fail (r : Rule) (f : Value → Value) (s : RuleState) :
    ((eval (.optional r) s (mkHelpers s.input s.source)).isSuccess = true)
    ∧ ((eval (.zeroOrMore r) s (mkHelpers s.input s.source)).isSuccess = true)
    ∧ ((eval (.text r) s (mkHelpers s.input s.source)).isSuccess = true ↔
        (eval r s (mkHelpers s.input s.source)).isSuccess = true)
    ∧ (∀ e, eval r s (mkHelpers s.input s.source) = .error e →
        eval (.optional r) s (mkHelpers s.input s.source) =
          .success ⟨s.input, s.source, s.currentIndex, .null, []⟩)
    ∧ (∀ o, eval r s (mkHelpers s.input s.source) = .success o →
        eval (.text r) s (mkHelpers s.input s.source) =
          .success { o with value := .str ((o.tokens.map (getTokenSourceAt s.source)).flatten) })
    ∧ ((eval (.map r f) s (mkHelpers s.input s.source)).isSuccess = true ↔
        (eval r s (mkHelpers s.input s.source)).isSuccess = true) := by
  refine ⟨?_, ?_, ?_, ?_, ?_, ?_⟩
  · rw [eval_optional]; unfold optional
    cases hres : eval r s (mkHelpers s.input s.source) <;> simp [RuleResult.isSuccess]
  · rw [eval_zeroOrMore]; unfold zeroOrMore zeroOrMoreFuel
    simp [RuleResult.isSuccess]
  · rw [eval_text]; unfold text
    cases hres : eval r s (mkHelpers s.input s.source) <;> simp [RuleResult.isSuccess]
  · intro e hres
    rw [eval_optional]; unfold optional
    rw [hres]
  · intro o hres
    rw [eval_text]; unfold text
    rw [hres]
    rfl
  · rw [eval_map]; unfold map
    cases hres : eval r s (mkHelpers s.input s.source) <;> simp [RuleResult.isSuccess]

theorem c9_never_fail_witness :
    let s : RuleState := ⟨[], [], 0⟩
    ((eval (.optional (.token "A")) s (mkHelpers [] [])).isSuccess = true)
    ∧ (∀ e, eval (.token "A") s (mkHelpers [] []) = .error e →
        eval (.optional (.token "A")) s (mkHelpers [] []) =
          .success ⟨[], [], 0, .null, []⟩) := by
  refine ⟨(c9_never_fail (.token "A") id ⟨[], [], 0⟩).1, ?_⟩
  exact fun e he => (c9_never_fail (.token "A") id ⟨[], [], 0⟩).2.2.2.1 e he

/-- C10: when the inner rule succeeds on the current state without advancing
`currentIndex`, zeroOrMore stops with the empty list, dropping the
zero-length success's value, while oneOrMore succeeds with a singleton list
containing that value — the two combinators treat the terminating
zero-length success asymmetrically. -/
theorem c10_zero_length_asymmetry (r : Rule) (s : RuleState) (o : OutState)
    (hres : eval r s (mkHelpers s.input s.source) = .success o)
    (hidx : o.currentIndex = s.currentIndex) :
    eval (.zeroOrMore r) s (mkHelpers s.input s.source) =
      .success ⟨s.input, s.source, s.currentIndex, .list [], []⟩
    ∧ eval (.oneOrMore r) s (mkHelpers s.input s.source) =
      .success { o with value := .list [o.value] } := by
  constructor
  · rw [eval_zeroOrMore]; unfold zeroOrMore zeroOrMoreFuel
    simp only [repGo, toInput_mk]
    rw [hres]
    simp [hidx]
  · rw [eval_oneOrMore]; unfold oneOrMore oneOrMoreFuel
    rw [hres]
    dsimp only
    rw [if_pos hidx]

theorem c10_zero_length_asymmetry_witness :
    let s : RuleState := ⟨[], [], 0⟩
    eval (.zeroOrMore .empty) s (mkHelpers [] []) =
      .success ⟨[], [], 0, .list [], []⟩
    ∧ eval (.oneOrMore .empty) s (mkHelpers [] []) =
      .success ⟨[], [], 0, .list [.null], []⟩ := by
  have h := c10_zero_length_asymmetry .empty ⟨[], [], 0⟩ ⟨[], [], 0, .null, []⟩
    (by rw [eval_empty]; rfl) rfl
  exact ⟨h.1, h.2⟩

/-- C5: the repetition loops terminate.  Once the fuel covers the tokens
remaining in the stream, the fuelled loops compute the same result as the
combinators (so the unbounded TypeScript loops terminate for every rule of
the algebra), and both loops stop as soon as the inner rule fails or
succeeds without advancing `currentIndex`. -/
theorem c5_repetition_termination (r : Rule) (s : RuleState) (fuel : Nat)
    (hf : s.input.length + 1 ≤ fuel + s.currentIndex) :
    (zeroOrMoreFuel (eval r) fuel s (mkHelpers s.input s.source) =
      eval (.zeroOrMore r) s (mkHelpers s.input s.source))
    ∧ (oneOrMoreFuel (eval r) fuel s (mkHelpers s.input s.source) =
      eval (.oneOrMore r) s (mkHelpers s.input s.source))
    ∧ (∀ (f : Nat) (acc : OutState) (values : List Value) (e : RuleErr),
        eval r acc.toInput (mkHelpers s.input s.source) = .error e →
        repGo (eval r) (mkHelpers s.input s.source) (f + 1) acc values = (acc, values))
    ∧ (∀ (f : Nat) (acc : OutState) (values : List Value) (o : OutState),
        eval r acc.toInput (mkHelpers s.input s.source) = .success o →
        o.currentIndex = acc.currentIndex →
        repGo (eval r) (mkHelpers s.input s.source) (f + 1) acc values = (acc, values)) := by
  have hstep := eval_stepOk s.input s.source r
  refine ⟨?_, ?_, ?_, ?_⟩
  · rw [eval_zeroOrMore]
    unfold zeroOrMore zeroOrMoreFuel
    rw [repGo_stable s.input s.source (eval r) hstep fuel (s.input.length + 1)
      ⟨s.input, s.source, s.currentIndex, .null, []⟩ [] rfl rfl
      (by dsimp only; omega) (by dsimp only; omega)]
  · rw [eval_oneOrMore]
    unfold oneOrMore oneOrMoreFuel
    cases hres : eval r s (mkHelpers s.input s.source) with
    | error e => rfl
    | success first =>
      dsimp only
      by_cases hidx : first.currentIndex = s.currentIndex
      · simp only [if_pos hidx]
      · simp only [if_neg hidx]
        have h1 := hstep s first rfl rfl hres
        rw [repGo_stable s.input s.source (eval r) hstep fuel (s.input.length + 1)
          { first with value := .null } [first.value] h1.1 h1.2.1
          (by dsimp only; have := h1.2.2.1; omega) (by dsimp only; have := h1.2.2.1; omega)]
  · intro f acc values e hres
    unfold repGo
    rw [hres]
  · intro f acc values o hres hidx
    unfold repGo
    rw [hres]
    dsimp only
    rw [if_pos hidx]

theorem c5_repetition_termination_witness :
    zeroOrMoreFuel (eval (.token "A")) 1 ⟨[], [], 0⟩ (mkHelpers [] []) =
      eval (.zeroOrMore (.token "A")) ⟨[], [], 0⟩ (mkHelpers [] []) :=
  (c5_repetition_termination (.token "A") ⟨[], [], 0⟩ 1 (by simp)).1

/-- C8: combinators commit no partial progress on failure.  The embedding is
pure, so a failing combinator returns only a message and a span and the
caller retains its state; the conjuncts below express the observable
consequences: a recovering caller (optional, choice, zeroOrMore) continues
from exactly the original state, and sequence propagates an inner failure
verbatim. -/
theorem c8_no_partial_progress (r : Rule) (s : RuleState) (e : RuleErr)
    (hfail : eval r s (mkHelpers s.input s.source) = .error e) :
    eval (.optional r) s (mkHelpers s.input s.source) =
      .success ⟨s.input, s.source, s.currentIndex, .null, []⟩
    ∧ (∀ (r2 : Rule) (o : OutState), eval r2 s (mkHelpers s.input s.source) = .success o →
        eval (.choice [r, r2]) s (mkHelpers s.input s.source) = .success o)
    ∧ (∀ rest : List Rule,
        eval (.sequence (r :: rest)) s (mkHelpers s.input s.source) = .error e)
    ∧ eval (.zeroOrMore r) s (mkHelpers s.input s.source) =
      .success ⟨s.input, s.source, s.currentIndex, .list [], []⟩ := by
  refine ⟨?_, ?_, ?_, ?_⟩
  · rw [eval_optional]; unfold optional
    rw [hfail]
  · intro r2 o hsucc
    rw [eval_choice]
    simp only [List.map]
    unfold choice choiceGo
    rw [hfail]
    dsimp only
    unfold choiceGo
    rw [hsucc]
  · intro rest
    rw [eval_sequence]
    simp only [List.map]
    unfold sequence sequenceGo
    rw [hfail]
  · rw [eval_zeroOrMore]; unfold zeroOrMore zeroOrMoreFuel
    simp only [repGo, toInput_mk]
    rw [hfail]

theorem c8_no_partial_progress_witness :
    eval (.optional (.token "A")) ⟨[], [], 0⟩ (mkHelpers [] []) =
      .success ⟨[], [], 0, .null, []⟩
    ∧ eval (.zeroOrMore (.token "A")) ⟨[], [], 0⟩ (mkHelpers [] []) =
      .success ⟨[], [], 0, .list [], []⟩ := by
  have h := c8_no_partial_progress (.token "A") ⟨[], [], 0⟩
    ⟨"Expected token: A", ⟨0, 0⟩⟩ (by rw [eval_token]; rfl)
  exact ⟨h.1, h.2.2.2⟩

/-- The running best error of choice.ts over a list of later errors. -/
def pickBest (b : RuleErr) (errs : List RuleErr) : RuleErr :=
  errs.foldl betterErr b

theorem pickBest_cons (b e : RuleErr) (l : List RuleErr) :
    pickBest b (e :: l) = pickBest (betterErr b e) l := rfl

/-- The best error is a member of the candidates, has the maximal span
start, and is the first candidate attaining that start. -/
theorem pickBest_spec (l : List RuleErr) : ∀ (b : RuleErr),
    pickBest b l ∈ b :: l
    ∧ (∀ x ∈ b :: l, x.location.start ≤ (pickBest b l).location.start)
    ∧ (b :: l).find? (fun x => x.location.start == (pickBest b l).location.start) =
        some (pickBest b l) := by
  induction l with
  | nil =>
    intro b
    refine ⟨by simp [pickBest], by simp [pickBest], ?_⟩
    simp [pickBest, List.find?_cons]
  | cons e l ih =>
    intro b
    rw [pickBest_cons]
    by_cases hgt : e.location.start > b.location.start
    · have hbe : betterErr b e = e := by unfold betterErr; rw [if_pos hgt]
      rw [hbe]
      obtain ⟨hmem, hbound, hfind⟩ := ih e
      have heb : e.location.start ≤ (pickBest e l).location.start := hbound e (by simp)
      refine ⟨?_, ?_, ?_⟩
      · rcases List.mem_cons.mp hmem with h1 | h1
        · simp [h1]
        · simp [h1]
      · intro x hx
        rcases List.mem_cons.mp hx with h1 | h1
        · subst h1; omega
        · exact hbound x h1
      · rw [List.find?_cons_of_neg, hfind]
        simp
        omega
    · have hbe : betterErr b e = b := by unfold betterErr; rw [if_neg hgt]
      rw [hbe]
      obtain ⟨hmem, hbound, hfind⟩ := ih b
      have hbb : b.location.start ≤ (pickBest b l).location.start := hbound b (by simp)
      refine ⟨?_, ?_, ?_⟩
      · rcases List.mem_cons.mp hmem with h1 | h1
        · simp [h1]
        · simp [h1]
      · intro x hx
        rcases List.mem_cons.mp hx with h1 | h1
        · subst h1; omega
        · rcases List.mem_cons.mp h1 with h2 | h2
          · subst h2; omega
          · exact hbound x (by simp [h2])
      · by_cases hb : b.location.start = (pickBest b l).location.start
        · have : (b :: l).find? (fun x => x.location.start == (pickBest b l).location.start) =
              some b := by
            rw [List.find?_cons_of_pos]
            simp [hb]
          rw [this] at hfind
          have hbm : b = pickBest b l := by injection hfind
          rw [List.find?_cons_of_pos]
          · rw [← hbm]
          · simp [hb]
        · have hfl : l.find? (fun x => x.location.start == (pickBest b l).location.start) =
              some (pickBest b l) := by
            rw [List.find?_cons_of_neg] at hfind
            · exact hfind
            · simp [hb]
          rw [List.find?_cons_of_neg, List.find?_cons_of_neg]
          · exact hfl
          · simp
            intro he
            exact absurd (by omega : b.location.start = (pickBest b l).location.start) hb
          · simp [hb]

/-- The failure path of choice.ts with a non-empty running best: the result
is the best error over the remaining alternatives' errors. -/
theorem choiceGo_all_error (helpers : Helpers) (s : RuleState) :
    ∀ (steps : List ParserRule) (errs : List RuleErr) (b : RuleErr),
      steps.map (fun p => p s helpers) = errs.map RuleResult.error →
      choiceGo helpers s steps (some b) = .error (pickBest b errs) := by
  intro steps
  induction steps with
  | nil =>
    intro errs b hall
    have : errs = [] := by
      cases errs with
      | nil => rfl
      | cons e l => simp at hall
    subst this
    rfl
  | cons p rest ih =>
    intro errs b hall
    cases errs with
    | nil => simp at hall
    | cons e erest =>
      simp only [List.map] at hall
      have h1 : p s helpers = .error e := by
        injection hall
      have h2 : rest.map (fun p => p s helpers) = erest.map RuleResult.error := by
        injection hall
      unfold choiceGo
      rw [h1]
      dsimp only
      rw [ih erest (betterErr b e) h2, pickBest_cons]

/-- The success path of choice.ts: after any prefix of failing alternatives,
the first succeeding alternative determines the result (later alternatives
are never consulted). -/
theorem choiceGo_skip_errors (helpers : Helpers) (s : RuleState) :
    ∀ (pre : List ParserRule) (best : Option RuleErr) (p0 : ParserRule)
      (post : List ParserRule) (o : OutState),
      (∀ p ∈ pre, ∃ e, p s helpers = .error e) → p0 s helpers = .success o →
      choiceGo helpers s (pre ++ p0 :: post) best = .success o := by
  intro pre
  induction pre with
  | nil =>
    intro best p0 post o _ hsucc
    show choiceGo helpers s (p0 :: post) best = .success o
    cases best <;> (unfold choiceGo; rw [hsucc])
  | cons q pre ih =>
    intro best p0 post o hfail hsucc
    obtain ⟨e, he⟩ := hfail q (by simp)
    show choiceGo helpers s (q :: (pre ++ p0 :: post)) best = .success o
    unfold choiceGo
    rw [he]
    dsimp only
    exact ih _ p0 post o (fun p hp => hfail p (by simp [hp])) hsucc

/-- C4: when every alternative of a non-empty choice fails, the returned
error is one of the alternatives' errors, its span start is the maximum
over the per-alternative failures, and among the alternatives attaining
that maximum the earliest in declaration order is returned (its error is
the first in the error list with that span start); when some alternative
succeeds, the first succeeding alternative (after any failing prefix)
determines the result, and later alternatives do not affect it. -/
theorem c4_choice_furthest_error (rules : List Rule) (s : RuleState) (helpers : Helpers) :
    (∀ (errs : List RuleErr), rules ≠ [] →
      rules.map (fun r => eval r s helpers) = errs.map RuleResult.error →
      ∃ e, eval (.choice rules) s helpers = .error e
        ∧ e ∈ errs
        ∧ (∀ x ∈ errs, x.location.start ≤ e.location.start)
        ∧ errs.find? (fun x => x.location.start == e.location.start) = some e)
    ∧ (∀ (pre : List Rule) (r0 : Rule) (post : List Rule) (o : OutState),
        rules = pre ++ r0 :: post →
        (∀ p ∈ pre, ∃ e, eval p s helpers = .error e) →
        eval r0 s helpers = .success o →
        eval (.choice rules) s helpers = .success o) := by
  constructor
  · intro errs hne hall
    cases rules with
    | nil => exact absurd rfl hne
    | cons r0 rrest =>
      cases errs with
      | nil => simp at hall
      | cons e0 erest =>
        simp only [List.map] at hall
        have h1 : eval r0 s helpers = .error e0 := by injection hall
        have h2 : rrest.map (fun r => eval r s helpers) = erest.map RuleResult.error := by
          injection hall
        refine ⟨pickBest e0 erest, ?_, ?_, ?_, ?_⟩
        · rw [eval_choice]
          simp only [List.map]
          unfold choice choiceGo
          rw [h1]
          dsimp only
          refine choiceGo_all_error helpers s (rrest.map eval) erest e0 ?_
          rw [List.map_map]
          exact h2
        · exact (pickBest_spec erest e0).1
        · exact (pickBest_spec erest e0).2.1
        · exact (pickBest_spec erest e0).2.2
  · intro pre r0 post o hsplit hfail hsucc
    subst hsplit
    rw [eval_choice]
    simp only [List.map_append, List.map_cons]
    unfold choice
    refine choiceGo_skip_errors helpers s (pre.map eval) none (eval r0) (post.map eval) o ?_ hsucc
    intro p hp
    rw [List.mem_map] at hp
    obtain ⟨q, hq, hqe⟩ := hp
    obtain ⟨e, he⟩ := hfail q hq
    exact ⟨e, by rw [← hqe]; exact he⟩

theorem c4_choice_furthest_error_witness :
    ∃ e, eval (.choice [.token "A", .token "B"])
        ⟨[⟨"C", ⟨0, 1⟩⟩], ['c'], 0⟩ (mkHelpers [⟨"C", ⟨0, 1⟩⟩] ['c']) = .error e
      ∧ e ∈ [(⟨"Expected token: A", ⟨0, 1⟩⟩ : RuleErr), ⟨"Expected token: B", ⟨0, 1⟩⟩]
      ∧ (∀ x ∈ [(⟨"Expected token: A", ⟨0, 1⟩⟩ : RuleErr), ⟨"Expected token: B", ⟨0, 1⟩⟩],
          x.location.start ≤ e.location.start)
      ∧ [(⟨"Expected token: A", ⟨0, 1⟩⟩ : RuleErr),
          ⟨"Expected token: B", ⟨0, 1⟩⟩].find?
            (fun x => x.location.start == e.location.start) = some e := by
  refine (c4_choice_furthest_error [.token "A", .token "B"]
    ⟨[⟨"C", ⟨0, 1⟩⟩], ['c'], 0⟩ (mkHelpers [⟨"C", ⟨0, 1⟩⟩] ['c'])).1
    [⟨"Expected token: A", ⟨0, 1⟩⟩, ⟨"Expected token: B", ⟨0, 1⟩⟩] (by simp) ?_
  simp only [List.map, eval_token]
  rfl

/-- C6: the driver succeeds exactly when the root rule succeeds consuming
the whole token stream; when the root rule succeeds with unconsumed tokens
remaining, the driver fails with "Expected end of input" at the first
unconsumed token's span; a root-rule failure is wrapped with the source
attached. -/
theorem c6_driver_end_of_input (r : Rule) (input : List Token) (source : List Char) :
    (∀ v, parseDriver (eval r) input source = some (.ok v) ↔
      ∃ o, eval r ⟨input, source, 0⟩ (mkHelpers input source) = .success o ∧
        o.currentIndex = input.length ∧ o.value = v)
    ∧ (∀ o, eval r ⟨input, source, 0⟩ (mkHelpers input source) = .success o →
        o.currentIndex ≠ input.length →
        ∃ t, input[o.currentIndex]? = some t ∧
          parseDriver (eval r) input source =
            some (.error ⟨"Expected end of input", source, t.location⟩))
    ∧ (∀ e, eval r ⟨input, source, 0⟩ (mkHelpers input source) = .error e →
        parseDriver (eval r) input source = some (.error ⟨e.message, source, e.location⟩)) := by
  refine ⟨?_, ?_, ?_⟩
  · intro v
    constructor
    · intro hp
      unfold parseDriver at hp
      split at hp
      · next e heq => exact absurd hp (by simp)
      · next o heq =>
        split at hp
        · next hlen =>
          refine ⟨o, heq, hlen, ?_⟩
          have h1 : (Except.ok o.value : Except ParseErr Value) = Except.ok v := by
            injection hp
          injection h1
        · split at hp
          · next t ht => exact absurd hp (by simp)
          · cases hp
    · intro ⟨o, heq, hlen, hv⟩
      unfold parseDriver
      rw [heq]
      dsimp only
      rw [if_pos hlen, hv]
  · intro o heq hne
    have hstep := eval_stepOk input source r ⟨input, source, 0⟩ o rfl rfl heq
    have hlt : o.currentIndex < input.length := by
      have h01 := hstep.2.2.1
      have h02 := hstep.2.2.2
      dsimp only at h01 h02
      omega
    refine ⟨input[o.currentIndex], List.getElem?_eq_getElem hlt, ?_⟩
    unfold parseDriver
    rw [heq]
    dsimp only
    rw [if_neg hne, List.getElem?_eq_getElem hlt]
  · intro e heq
    unfold parseDriver
    rw [heq]

theorem c6_driver_end_of_input_witness :
    parseDriver (eval .empty) [] [] = some (.ok .null)
    ∧ (∃ t, ([⟨"A", ⟨0, 1⟩⟩] : List Token)[0]? = some t ∧
        parseDriver (eval .empty) [⟨"A", ⟨0, 1⟩⟩] ['a'] =
          some (.error ⟨"Expected end of input", ['a'], t.location⟩)) := by
  constructor
  · exact ((c6_driver_end_of_input .empty [] []).1 .null).mpr
      ⟨⟨[], [], 0, .null, []⟩, by rw [eval_empty]; rfl, rfl, rfl⟩
  · exact (c6_driver_end_of_input .empty [⟨"A", ⟨0, 1⟩⟩] ['a']).2.1
      ⟨[⟨"A", ⟨0, 1⟩⟩], ['a'], 0, .null, []⟩ (by rw [eval_empty]; rfl) (by simp)

/-- C7: list semantics.  With `minLength ≤ 0` the combinator is exactly
`optional` of the one-element list with the empty list substituted on
failure; a success of the one-element list decomposes as the item followed
by zero-or-more separator-plus-item repetitions, in order, so the list
length is 1 plus the number of separators consumed (each repetition
consumes exactly one separator success); a failing leading item (e.g. a
leading separator) fails the one-element list with the item's error; a
trailing separator whose following item fails is left unconsumed. -/
theorem c7_list_semantics (item separator : ParserRule) (helpers : Helpers) :
    (∀ m : Int, m ≤ 0 → createListMatcher item separator m =
      map (optional (createListMatcher item separator 1))
        (fun v => match v with | .null => .list [] | v => v))
    ∧ (∀ s o, createListMatcher item separator 1 s helpers = .success o →
        ∃ o1 o2 vs, item s helpers = .success o1
          ∧ zeroOrMore (listTailItem item separator) o1.toInput helpers = .success o2
          ∧ o2.value = .list vs
          ∧ o.value = .list (o1.value :: vs)
          ∧ o.currentIndex = o2.currentIndex
          ∧ o.tokens = o1.tokens ++ o2.tokens)
    ∧ (∀ t o1, listTailItem item separator t helpers = .success o1 →
        ∃ os oi, separator t helpers = .success os
          ∧ item os.toInput helpers = .success oi
          ∧ o1.value = oi.value ∧ o1.currentIndex = oi.currentIndex)
    ∧ (∀ s e, item s helpers = .error e →
        createListMatcher item separator 1 s helpers = .error e
        ∧ createListMatcher item separator 0 s helpers =
            .success ⟨s.input, s.source, s.currentIndex, .list [], []⟩)
    ∧ (∀ t os e, separator t helpers = .success os →
        item os.toInput helpers = .error e →
        listTailItem item separator t helpers = .error e
        ∧ zeroOrMore (listTailItem item separator) t helpers =
            .success ⟨t.input, t.source, t.currentIndex, .list [], []⟩) := by
  have hone : createListMatcher item separator 1 =
      createListMatcherPos item separator 1 := by
    unfold createListMatcher
    rw [if_neg (by norm_num)]
    rfl
  have hpos : createListMatcherPos item separator 1 =
      map (sequence [item, zeroOrMore (listTailItem item separator)]) combineListResults := by
    unfold createListMatcherPos
    rfl
  refine ⟨?_, ?_, ?_, ?_, ?_⟩
  · intro m hm
    unfold createListMatcher
    rw [if_pos hm, if_neg (by norm_num : ¬ (1 : Int) ≤ 0)]
    rfl
  · intro s o hsus
    rw [hone, hpos] at hsus
    unfold map at hsus
    split at hsus
    · cases hsus
    · next o3 heq =>
      cases hsus
      unfold sequence sequenceGo at heq
      split at heq
      · cases heq
      · next o1 heq1 =>
        unfold sequenceGo at heq
        rcases hz : zeroOrMore (listTailItem item separator) o1.toInput helpers with o2 | e2
        · rw [hz] at heq
          unfold sequenceGo at heq
          cases heq
          have hzval : ∃ vs, o2.value = .list vs := by
            unfold zeroOrMore zeroOrMoreFuel at hz
            simp only at hz
            cases hz
            exact ⟨_, rfl⟩
          obtain ⟨vs, hvs⟩ := hzval
          refine ⟨o1, o2, vs, heq1, hz, hvs, ?_, rfl, rfl⟩
          dsimp only
          unfold combineListResults
          rw [hvs]
          simp
        · rw [hz] at heq
          exact absurd hz (by
            unfold zeroOrMore zeroOrMoreFuel
            simp)
  · intro t o1 hsus
    unfold listTailItem map at hsus
    split at hsus
    · cases hsus
    · next o3 heq =>
      cases hsus
      unfold sequence sequenceGo at heq
      split at heq
      · cases heq
      · next os heqs =>
        unfold sequenceGo at heq
        split at heq
        · cases heq
        · next oi heqi =>
          unfold sequenceGo at heq
          cases heq
          exact ⟨os, oi, heqs, heqi, rfl, rfl⟩
  · intro s e hfail
    constructor
    · rw [hone, hpos]
      unfold map sequence sequenceGo
      rw [hfail]
    · unfold createListMatcher
      rw [if_pos (by norm_num)]
      unfold map optional
      rw [hone] at *
      rw [hpos]
      unfold map sequence sequenceGo
      rw [hfail]
  · intro t os e hsep hfail
    have htail : listTailItem item separator t helpers = .error e := by
      unfold listTailItem map sequence sequenceGo
      rw [hsep]
      dsimp only
      unfold sequenceGo
      rw [hfail]
    refine ⟨htail, ?_⟩
    unfold zeroOrMore zeroOrMoreFuel
    simp only [repGo, toInput_mk]
    rw [htail]

theorem c7_list_semantics_witness :
    createListMatcher (token "N") (token "C") 0 =
      map (optional (createListMatcher (token "N") (token "C") 1))
        (fun v => match v with | .null => .list [] | v => v)
    ∧ createListMatcher (token "N") (token "C") 0 ⟨[], [], 0⟩ (mkHelpers [] []) =
        .success ⟨[], [], 0, .list [], []⟩ := by
  have h := c7_list_semantics (token "N") (token "C") (mkHelpers [] [])
  refine ⟨h.1 0 (by norm_num), ?_⟩
  exact (h.2.2.2.1 ⟨[], [], 0⟩ ⟨"Expected token: N", ⟨0, 0⟩⟩ (by rfl)).2

/-- C1 counterexample: for a DSL grammar whose first non-terminal rule is
lowercase-named while a later uppercase-named non-terminal rule exists, the
claimed root selection (first uppercase-named non-terminal rule, here
"Bar") disagrees with the code, which throws
"Root rule must define an AST Node: foo" instead of returning a grammar
rooted at "Bar". -/
theorem c1_counterexample :
    specRootNodeType [.nonTerminalRule "foo", .nonTerminalRule "Bar"] = some "Bar"
    ∧ parseSyntaxGrammarRoot [.nonTerminalRule "foo", .nonTerminalRule "Bar"] =
        .error "Root rule must define an AST Node: foo" := by
  constructor
  · rfl
  · rfl

/-- C1 (amended): grammar construction selects the first non-terminal rule
in declaration order, whatever its case, as the root candidate: it returns
a root exactly when that first non-terminal rule exists and is
uppercase-named, and otherwise fails — in particular it fails whenever no
uppercase-named non-terminal rule exists, but also when only a later rule
is uppercase-named. -/
theorem c1_root_selection (rules : List SyntaxRuleNode) :
    (∀ n, parseSyntaxGrammarRoot rules = .ok n ↔
      rules.findSome? nonTerminalName = some n ∧ isNodeTypeIdentifier n = true)
    ∧ ((∀ r ∈ rules, ∀ n, nonTerminalName r = some n → isNodeTypeIdentifier n = false) →
      ∃ msg, parseSyntaxGrammarRoot rules = .error msg) := by
  constructor
  · intro n
    unfold parseSyntaxGrammarRoot
    cases hfind : rules.findSome? nonTerminalName with
    | none => simp
    | some name =>
      dsimp only
      by_cases hup : isNodeTypeIdentifier name
      · rw [if_pos hup]
        constructor
        · intro h
          have hn : name = n := by injection h
          subst hn
          exact ⟨rfl, hup⟩
        · intro ⟨h1, _⟩
          have hn : name = n := by injection h1
          rw [hn]
      · rw [if_neg hup]
        constructor
        · intro h; cases h
        · intro ⟨h1, h2⟩
          have hn : name = n := by injection h1
          subst hn
          exact absurd h2 (by simpa using hup)
  · intro hnone
    unfold parseSyntaxGrammarRoot
    cases hfind : rules.findSome? nonTerminalName with
    | none => exact ⟨_, rfl⟩
    | some name =>
      obtain ⟨r, hr, hrn⟩ := List.exists_of_findSome?_eq_some hfind
      dsimp only
      have := hnone r hr name hrn
      rw [if_neg (by simp [this])]
      exact ⟨_, rfl⟩

theorem c1_root_selection_witness :
    parseSyntaxGrammarRoot [.terminalRule "NUM", .nonTerminalRule "Baz"] = .ok "Baz"
    ∧ (∃ msg, parseSyntaxGrammarRoot [.nonTerminalRule "qux"] = .error msg) := by
  constructor
  · exact ((c1_root_selection [.terminalRule "NUM", .nonTerminalRule "Baz"]).1 "Baz").mpr
      ⟨rfl, rfl⟩
  · exact (c1_root_selection [.nonTerminalRule "qux"]).2
      (by intro r hr n hn; simp at hr; subst hr; injection hn with h; subst h; rfl)

/-- C2: the lexer has no zero-length guard.  With a declared pattern that
matches the empty string (for example `createTokenParser("")`, or any
regular expression that can match zero characters) on the source "b", the
first pattern match at position 0 is accepted with a zero-length span and
the position does not advance, so the tokenize loop never terminates (the
fuelled model returns none for every fuel) — instead of rejecting
zero-length matches or failing with "Unrecognized token" as specified. -/
theorem c2_zero_length_divergence :
    firstTokenMatch [("A", createTokenParserLit [])] ['b'] 0 = some ("A", 0)
    ∧ (∀ (fuel : Nat) (tokens : List Token),
        tokenizeGo [("A", createTokenParserLit [])] ['b'] fuel 0 tokens = none) := by
  constructor
  · rfl
  · intro fuel
    induction fuel with
    | zero => intro tokens; rfl
    | succ fuel ih =>
      intro tokens
      unfold tokenizeGo
      rw [if_pos (by simp)]
      exact ih (tokens ++ [⟨"A", ⟨0, 0⟩⟩])

/-- C3 counterexample: extending a grammar that has a rule "A" with a new
rule map containing only "B", the newly supplied factory receives a handle
that exposes no property for the pre-existing rule "A" (reading "A" yields
none, the model of undefined), even though "A" is a rule of the merged
grammar; the factory for "B" therefore stores none where the claim promises
a lazy reference to "A". -/
theorem c3_counterexample :
    "A" ∈ (extendGrammarModel [("A", some (LazyRuleAccessor.lazyRef "A"))]
      [("B", fun h => h "A")]).map Prod.fst
    ∧ lookupRule (extendGrammarModel [("A", some (LazyRuleAccessor.lazyRef "A"))]
        [("B", fun h => h "A")]) "B" = some none
    ∧ accessorHandle ["B"] "A" = none := by
  refine ⟨?_, ?_, ?_⟩
  · simp [extendGrammarModel, createLazyRuleAccessorsModel]
  · rfl
  · rfl

/-- C3 (amended): extending a grammar merges the new rule entries over the
existing ones into a fresh rule map (lookups prefer the new entries and
fall back to the old ones), and each newly supplied factory receives a
handle whose properties are lazy references to exactly the newly supplied
rules — reading a newly supplied rule's name yields a lazy reference to it,
and reading any other name (including every pre-existing rule) yields
nothing. -/
theorem c3_extend_grammar {A : Type} (old : List (String × A))
    (defs : List (String × RuleFactory A)) (k : String) :
    (lookupRule (extendGrammarModel old defs) k =
      match lookupRule (createLazyRuleAccessorsModel defs) k with
      | some v => some v
      | none => lookupRule old k)
    ∧ ((accessorHandle (defs.map Prod.fst) k).isSome = true ↔ k ∈ defs.map Prod.fst)
    ∧ (k ∈ defs.map Prod.fst → accessorHandle (defs.map Prod.fst) k =
        some (.lazyRef k))
    ∧ (∀ f, (k, f) ∈ defs →
        (k, f (accessorHandle (defs.map Prod.fst))) ∈ createLazyRuleAccessorsModel defs) := by
  refine ⟨?_, ?_, ?_, ?_⟩
  · unfold extendGrammarModel lookupRule
    rw [List.reverse_append, List.find?_append]
    cases hfind : (createLazyRuleAccessorsModel defs).reverse.find? (fun kv => kv.1 = k) with
    | none => cases hold : old.reverse.find? (fun kv => kv.1 = k) <;> rfl
    | some kv => rfl
  · unfold accessorHandle
    by_cases hk : k ∈ defs.map Prod.fst
    · rw [if_pos hk]; simp [hk]
    · rw [if_neg hk]; simp [hk]
  · intro hk
    unfold accessorHandle
    rw [if_pos hk]
  · intro f hf
    unfold createLazyRuleAccessorsModel
    rw [List.mem_map]
    exact ⟨(k, f), hf, rfl⟩

theorem c3_extend_grammar_witness :
    (lookupRule (extendGrammarModel [("A", (0 : Nat))] [("C", fun _ => 1)]) "A" =
      match lookupRule (createLazyRuleAccessorsModel
          [(("C" : String), (fun _ => 1 : RuleFactory Nat))]) "A" with
      | some v => some v
      | none => lookupRule [("A", (0 : Nat))] "A")
    ∧ accessorHandle ["C"] "C" = some (.lazyRef "C") := by
  constructor
  · exact (c3_extend_grammar [("A", (0 : Nat))] [("C", fun _ => 1)] "A").1
  · exact (c3_extend_grammar ([] : List (String × Nat)) [("C", fun _ => 1)] "C").2.2.1
      (by simp)

end STX


